import Mathlib

/-!
Shallow embedding of the RAG core of the `legalaichatbot` backend
(`backend/app/`): the adaptive-batch embedding client, the per-tenant
FAISS vector store, the legal-document chunker, the MMR retriever and
the chat pipeline, together with proofs about the claims of the
specification.  Loops of the Python source are rendered as
fuel-indexed structural recursions; each comes with a lemma showing the
chosen fuel is enough (the loop terminates within that many
iterations), so the definitions compute by kernel reduction.
-/

namespace LegalRag

/-! ### Embedding service — `app/services/embedding_service.py`

`EmbeddingService.embed_batch` walks the text list with a cursor `i`,
trying batch sizes 5, 2, 1 in order; the first size whose provider call
succeeds appends that slice's vectors and moves the cursor to the slice
end; if all three sizes fail the item at `i` is skipped (`i += 1`) and
nothing is appended.  We abstract the provider by an oracle giving the
outcome of the attempt at cursor `i` with a given batch size (for size 2
this is the conjunction of the two parallel single calls, for size 1 the
retried single call), and record the result as the list of indices of
the texts whose vectors end up in `embeddings`, in output order. -/

/-- Provider outcome oracle: `ok i s = true` iff the attempt covering the
slice starting at text index `i` with batch size `s` succeeds. -/
def EmbedOracle : Type := Nat → Nat → Bool

/-- The `while i < total_texts` loop of `embed_batch`, fuel-indexed.
Each iteration advances the cursor by at least one, so `n - i` fuel
suffices (`embedBatchGo_congr`). -/
def embedBatchGo (ok : EmbedOracle) (n : Nat) : Nat → Nat → List Nat
  | _, 0 => []
  | i, fuel + 1 =>
    if i < n then
      if ok i 5 then
        List.range' i (min (i + 5) n - i) ++ embedBatchGo ok n (min (i + 5) n) fuel
      else if ok i 2 then
        List.range' i (min (i + 2) n - i) ++ embedBatchGo ok n (min (i + 2) n) fuel
      else if ok i 1 then
        i :: embedBatchGo ok n (i + 1) fuel
      else
        embedBatchGo ok n (i + 1) fuel
    else []

/-- `embed_batch` on `n` texts: indices of the texts that were embedded,
in the order their vectors are appended. -/
def embedBatch (ok : EmbedOracle) (n : Nat) : List Nat :=
  embedBatchGo ok n 0 n

/-- Any fuel of at least `n - i` computes the same result: the batch loop
terminates within `n - i` iterations. -/
theorem embedBatchGo_congr (ok : EmbedOracle) (n : Nat) :
    ∀ f₁ : Nat, ∀ f₂ i : Nat, n - i ≤ f₁ → n - i ≤ f₂ →
      embedBatchGo ok n i f₁ = embedBatchGo ok n i f₂ := by
  intro f₁
  induction f₁ with
  | zero =>
    intro f₂ i h₁ h₂
    have hin : ¬ i < n := by omega
    cases f₂ with
    | zero => rfl
    | succ f₂ => simp [embedBatchGo, hin]
  | succ f₁ ih =>
    intro f₂ i h₁ h₂
    cases f₂ with
    | zero =>
      have hin : ¬ i < n := by omega
      simp [embedBatchGo, hin]
    | succ f₂ =>
      by_cases hin : i < n
      · have h5 : i + 1 ≤ min (i + 5) n := by omega
        have h2 : i + 1 ≤ min (i + 2) n := by omega
        simp only [embedBatchGo, hin, if_true]
        rw [ih f₂ (min (i + 5) n) (by omega) (by omega),
            ih f₂ (min (i + 2) n) (by omega) (by omega),
            ih f₂ (i + 1) (by omega) (by omega)]
      · simp [embedBatchGo, hin]

/-- Every index in the batch loop's output lies in `[i, n)`. -/
theorem embedBatchGo_mem_bounds (ok : EmbedOracle) (n : Nat) :
    ∀ fuel i j : Nat, j ∈ embedBatchGo ok n i fuel → i ≤ j ∧ j < n := by
  intro fuel
  induction fuel with
  | zero => intro i j h; simp [embedBatchGo] at h
  | succ fuel ih =>
    intro i j h
    rw [embedBatchGo] at h
    by_cases hin : i < n
    · rw [if_pos hin] at h
      by_cases h5 : ok i 5 = true
      · rw [if_pos h5, List.mem_append] at h
        rcases h with h | h
        · rw [List.mem_range'_1] at h; omega
        · have := ih (min (i + 5) n) j h; omega
      · rw [if_neg h5] at h
        by_cases h2 : ok i 2 = true
        · rw [if_pos h2, List.mem_append] at h
          rcases h with h | h
          · rw [List.mem_range'_1] at h; omega
          · have := ih (min (i + 2) n) j h; omega
        · rw [if_neg h2] at h
          by_cases h1 : ok i 1 = true
          · rw [if_pos h1, List.mem_cons] at h
            rcases h with h | h
            · omega
            · have := ih (i + 1) j h; omega
          · rw [if_neg h1] at h
            have := ih (i + 1) j h; omega
    · rw [if_neg hin] at h
      simp at h

/-- The batch loop's output is strictly increasing. -/
theorem embedBatchGo_pairwise (ok : EmbedOracle) (n : Nat) :
    ∀ fuel i : Nat, (embedBatchGo ok n i fuel).Pairwise (· < ·) := by
  intro fuel
  induction fuel with
  | zero => intro i; simp [embedBatchGo]
  | succ fuel ih =>
    intro i
    rw [embedBatchGo]
    by_cases hin : i < n
    · rw [if_pos hin]
      by_cases h5 : ok i 5 = true
      · rw [if_pos h5, List.pairwise_append]
        refine ⟨List.pairwise_lt_range' _ _, ih _, ?_⟩
        intro a ha b hb
        rw [List.mem_range'_1] at ha
        have := embedBatchGo_mem_bounds ok n fuel _ b hb
        omega
      · rw [if_neg h5]
        by_cases h2 : ok i 2 = true
        · rw [if_pos h2, List.pairwise_append]
          refine ⟨List.pairwise_lt_range' _ _, ih _, ?_⟩
          intro a ha b hb
          rw [List.mem_range'_1] at ha
          have := embedBatchGo_mem_bounds ok n fuel _ b hb
          omega
        · rw [if_neg h2]
          by_cases h1 : ok i 1 = true
          · rw [if_pos h1, List.pairwise_cons]
            refine ⟨?_, ih _⟩
            intro b hb
            have := embedBatchGo_mem_bounds ok n fuel _ b hb
            omega
          · rw [if_neg h1]; exact ih _
    · rw [if_neg hin]; simp

/-- The batch loop emits at most `n - i` vectors: the output can be no
longer than the input. -/
theorem embedBatchGo_length (ok : EmbedOracle) (n : Nat) :
    ∀ fuel i : Nat, (embedBatchGo ok n i fuel).length ≤ n - i := by
  intro fuel
  induction fuel with
  | zero => intro i; simp [embedBatchGo]
  | succ fuel ih =>
    intro i
    rw [embedBatchGo]
    by_cases hin : i < n
    · rw [if_pos hin]
      by_cases h5 : ok i 5 = true
      · rw [if_pos h5]
        rw [List.length_append, List.length_range']
        have := ih (min (i + 5) n)
        omega
      · rw [if_neg h5]
        by_cases h2 : ok i 2 = true
        · rw [if_pos h2]
          rw [List.length_append, List.length_range']
          have := ih (min (i + 2) n)
          omega
        · rw [if_neg h2]
          by_cases h1 : ok i 1 = true
          · rw [if_pos h1, List.length_cons]
            have := ih (i + 1)
            omega
          · rw [if_neg h1]
            have := ih (i + 1)
            omega
    · rw [if_neg hin]
      simp

/-! ### Vector store — `app/rag/vector_store.py`

Chunk metadata is a Python dict; we model it as an association list of
string keys to values (string / int / `None`).  An organization's store
is the pair (FAISS index, metadata list); the FAISS `IndexFlatL2` is
modelled as the list of its stored vectors (rational coordinates), so
`ntotal` is the list length.  Disk persistence and the S3 mirror are
plumbing with no effect on the in-memory state and are not modelled. -/

/-- A metadata value: Python string, int, or `None`. -/
inductive MVal where
  | str : String → MVal
  | int : Int → MVal
  | null : MVal
deriving DecidableEq, Repr

/-- A metadata dict, as an association list. -/
abbrev Meta : Type := List (String × MVal)

/-- `metadata.get(key)`. -/
def metaGet (m : Meta) (key : String) : Option MVal :=
  List.lookup key m

/-- An embedding vector. -/
abbrev Vec : Type := List ℚ

/-- One organization's in-memory store: FAISS vectors plus the parallel
metadata list (`self.indexes[org]`, `self.metadatas[org]`). -/
structure OrgStore where
  vectors : List Vec
  metas : List Meta
deriving DecidableEq

/-- `index.ntotal`. -/
def OrgStore.ntotal (s : OrgStore) : Nat := s.vectors.length

/-- `VectorStore.add_documents(org, chunks)` for one organization.
`chunks` pairs each chunk's text with its metadata; the chunk texts are
embedded through `embed_batch`, abstracted by the oracle `ok` plus a
function `embed` giving the vector produced for text index `j`.
Mirrors the source: empty `chunks` returns `False`; if `embed_batch`
returns no embeddings at all, `np.array(embeddings).shape[1]` raises
`IndexError`, the `except` clause returns `False` and the state is
unchanged; otherwise the successful vectors are appended to the index
while the metadata of *every* chunk is appended to the metadata list,
and the call returns `True`.  `st = none` models an organization whose
index does not exist yet (a fresh `IndexFlatL2` is created). -/
def addDocuments (embed : Nat → Vec) (ok : EmbedOracle) (st : Option OrgStore)
    (chunks : List (String × Meta)) : Bool × Option OrgStore :=
  if chunks.isEmpty then (false, st)
  else
    let idxs := embedBatch ok chunks.length
    if idxs.isEmpty then (false, st)
    else
      let cur := st.getD ⟨[], []⟩
      (true, some ⟨cur.vectors ++ idxs.map embed, cur.metas ++ chunks.map Prod.snd⟩)

/-- `VectorStore.delete_document(org, document_id)`.  Mirrors the source:
if the org has no loaded index (and none can be loaded) return `False`;
compute `keep_indices`, the positions whose metadata's `document_id`
differs from the target; if nothing matched return `False` ("document
not found"); otherwise return `True` — the source never rebuilds the
index (the rebuild is an unimplemented `TODO`), so the state is
returned unchanged. -/
def deleteDocument (st : Option OrgStore) (docId : Int) : Bool × Option OrgStore :=
  match st with
  | none => (false, none)
  | some s =>
    let keep := s.metas.filter fun m => !(metaGet m "document_id" == some (MVal.int docId))
    if keep.length = s.metas.length then (false, some s)
    else (true, some s)

/-! ### Vector search — `VectorStore.search` and `RetrieverAgent.retrieve`

`faiss.IndexFlatL2.search(q, k)` returns the `k` nearest stored vectors
by (squared) L2 distance, distances ascending.  We model it exactly:
sort all `(distance, index)` pairs by distance (index as tie-break) and
take the first `k`. -/

/-- Squared Euclidean distance, the metric of `IndexFlatL2`. -/
def sqDist (q v : Vec) : ℚ :=
  ((List.zip q v).map fun p => (p.1 - p.2) ^ 2).sum

/-- Ordering on `(distance, index)` pairs: by distance, then by index. -/
def distRank (a b : ℚ × Nat) : Prop :=
  a.1 < b.1 ∨ (a.1 = b.1 ∧ a.2 ≤ b.2)

instance : DecidableRel distRank := fun a b => by
  unfold distRank; infer_instance

instance : IsTotal (ℚ × Nat) distRank :=
  ⟨fun a b => by unfold distRank; rcases lt_trichotomy a.1 b.1 with h | h | h
                 · exact Or.inl (Or.inl h)
                 · rcases Nat.le_total a.2 b.2 with h2 | h2
                   · exact Or.inl (Or.inr ⟨h, h2⟩)
                   · exact Or.inr (Or.inr ⟨h.symm, h2⟩)
                 · exact Or.inr (Or.inl h)⟩

instance : IsTrans (ℚ × Nat) distRank :=
  ⟨fun a b c hab hbc => by
    unfold distRank at *
    rcases hab with h | ⟨h, h2⟩ <;> rcases hbc with h' | ⟨h', h2'⟩
    · exact Or.inl (h.trans h')
    · exact Or.inl (h'.symm ▸ h)
    · exact Or.inl (h ▸ h')
    · exact Or.inr ⟨h.trans h', h2.trans h2'⟩⟩

/-- `index.search(query_vector, k)`: the `k` nearest stored vectors,
as `(distance, index)` pairs in ascending-distance order. -/
def faissSearch (vecs : List Vec) (q : Vec) (k : Nat) : List (ℚ × Nat) :=
  (List.insertionSort distRank ((vecs.enum).map fun p => (sqDist q p.2, p.1))).take k

/-- One search result of `VectorStore.search`: metadata, raw distance
(`"score"` in the source) and FAISS row index. -/
structure SearchHit where
  meta : Meta
  score : ℚ
  idx : Nat
deriving DecidableEq

/-- `VectorStore._matches_filters`: every filter key must be present in
the metadata with exactly the filter's value. -/
def matchesFilters (m : Meta) (filters : List (String × MVal)) : Bool :=
  filters.all fun kv => metaGet m kv.1 == some kv.2

/-- Whether a raw FAISS hit survives the result loop's guards: the row
index must be within the metadata list and the metadata must pass the
filters (`filters = none` models `filters=None`). -/
def hitPasses (metas : List Meta) (filters : Option (List (String × MVal)))
    (p : ℚ × Nat) : Bool :=
  p.2 < metas.length &&
    (match filters with
     | some f => matchesFilters (metas.getD p.2 []) f
     | none => true)

/-- The result-building loop of `VectorStore.search`: walk the FAISS hits
in order, skip rows outside the metadata list, skip rows failing the
filters, append the rest, and break once `len(results) >= top_k`
(checked after appending, as in the source).  `c` is `len(results)` so
far. -/
def collectHits (metas : List Meta) (filters : Option (List (String × MVal)))
    (topK : Nat) : Nat → List (ℚ × Nat) → List SearchHit
  | _, [] => []
  | c, p :: rest =>
    if hitPasses metas filters p then
      ⟨metas.getD p.2 [], p.1, p.2⟩ ::
        (if c + 1 ≥ topK then [] else collectHits metas filters topK (c + 1) rest)
    else collectHits metas filters topK c rest

/-- `VectorStore.search(org, query, top_k, filters)` on a loaded store,
with the query embedding `q` already produced by `embed_query`.
Mirrors the source: empty index returns `[]`; otherwise over-fetch
`search_k = min(top_k * 3, index.ntotal)` nearest neighbours and run the
filter loop. -/
def vectorSearch (st : OrgStore) (q : Vec) (topK : Nat)
    (filters : Option (List (String × MVal))) : List SearchHit :=
  if st.ntotal = 0 then []
  else collectHits st.metas filters topK 0
    (faissSearch st.vectors q (min (topK * 3) st.ntotal))

/-- An enriched result of `RetrieverAgent.retrieve`: text, metadata and
the similarity score `1 / (1 + distance)`. -/
structure RChunk where
  text : String
  meta : Meta
  relevance : ℚ
deriving DecidableEq

/-- `metadata.get("text", "")`. -/
def metaText (m : Meta) : String :=
  match metaGet m "text" with
  | some (MVal.str s) => s
  | _ => ""

/-- The enrichment step of `RetrieverAgent.retrieve`: converts the raw
distance to the similarity `1 / (1 + distance)`. -/
def enrich (h : SearchHit) : RChunk :=
  ⟨metaText h.meta, h.meta, 1 / (1 + h.score)⟩

/-- `RetrieverAgent.retrieve` after the query embedding: search, then
enrich every result. -/
def retrieveModel (st : OrgStore) (q : Vec) (topK : Nat)
    (filters : Option (List (String × MVal))) : List RChunk :=
  (vectorSearch st q topK filters).map enrich

/-! ### Chunker — `app/rag/chunker.py`

`LegalDocumentChunker` splits a document into chunks, preserving legal
section structure when markers are present.  Python's `text.split()`
splits on whitespace runs; `int(x * 0.75)` on a nonnegative int `x` is
exactly `x * 3 / 4` in integer arithmetic (0.75 and the product are
exact binary floats in the relevant range).  The five marker regexes
and the four-alternative split regex are rendered as explicit
character-list matchers with the same greedy semantics. -/

/-- Python's `str.isspace` set for `\s` (ASCII range). -/
def pyIsSpace (c : Char) : Bool :=
  c = ' ' || c = '\t' || c = '\n' || c = '\r' || c = '\x0b' || c = '\x0c'

/-- Python `text.split()`: split on whitespace runs, no empty pieces. -/
def pyWords (s : String) : List String :=
  (s.split fun c => pyIsSpace c).filter fun w => w ≠ ""

/-- Chunker configuration (`chunk_size`, `chunk_overlap`). -/
structure ChunkerCfg where
  chunkSize : Nat
  chunkOverlap : Nat
deriving DecidableEq

/-- `words_per_chunk = int(self.chunk_size * 0.75)`. -/
def wordsPerChunk (cfg : ChunkerCfg) : Nat := cfg.chunkSize * 3 / 4

/-- `words_overlap = int(self.chunk_overlap * 0.75)`. -/
def wordsOverlap (cfg : ChunkerCfg) : Nat := cfg.chunkOverlap * 3 / 4

/-- A produced chunk: its text plus the copied base metadata and the
chunk-local fields the chunker adds.  `none` in an `Option` field
models the key being absent from the metadata dict; in particular
`sectionTag = some none` models `metadata["section"] = None`
(the field is named `sectionTag` because `section` is a Lean keyword). -/
structure Chunk where
  text : String
  base : Meta
  chunkIndex : Option Nat := none
  chunkType : Option String := none
  sectionTag : Option (Option String) := none
  subChunk : Option Nat := none
deriving DecidableEq

/-- The sliding-window loop of `_chunk_by_tokens`, fuel-indexed.  Each
iteration emits one chunk and advances `start` by
`stride = max(1, words_per_chunk - words_overlap)` (the floor of 1 is
the source's infinite-loop guard), so `words.length` fuel suffices
(`chunkByTokensGo_congr`). -/
def chunkByTokensGo (meta : Meta) (words : List String) (wpc wo : Nat) :
    Nat → Nat → Nat → List Chunk
  | _, _, 0 => []
  | start, cidx, fuel + 1 =>
    if start < words.length then
      let e := min (start + wpc) words.length
      let c : Chunk :=
        { text := String.intercalate " " ((words.drop start).take (e - start)),
          base := meta, chunkIndex := some cidx, chunkType := some "token_based" }
      if e ≥ words.length then [c]
      else c :: chunkByTokensGo meta words wpc wo (start + max 1 (wpc - wo)) (cidx + 1) fuel
    else []

/-- `LegalDocumentChunker._chunk_by_tokens(text, metadata)`. -/
def chunkByTokens (cfg : ChunkerCfg) (meta : Meta) (text : String) : List Chunk :=
  let words := pyWords text
  if words.length = 0 then []
  else chunkByTokensGo meta words (wordsPerChunk cfg) (wordsOverlap cfg) 0 0 words.length

/-- The sliding-window loop of `_split_long_text`, fuel-indexed; same
shape as `chunkByTokensGo` but tagging chunks with the parent section
name and a `sub_chunk` index instead of `chunk_index`/`chunk_type`. -/
def splitLongGo (meta : Meta) (secName : Option String) (words : List String)
    (wpc stride : Nat) : Nat → Nat → Nat → List Chunk
  | _, _, 0 => []
  | start, subIdx, fuel + 1 =>
    if start < words.length then
      let e := min (start + wpc) words.length
      let c : Chunk :=
        { text := String.intercalate " " ((words.drop start).take (e - start)),
          base := meta, sectionTag := some secName, subChunk := some subIdx }
      if e ≥ words.length then [c]
      else c :: splitLongGo meta secName words wpc stride (start + stride) (subIdx + 1) fuel
    else []

/-- `LegalDocumentChunker._split_long_text(text, metadata, section_name)`:
a unit short enough becomes a single chunk carrying the original text
(no `sub_chunk` key); a longer one is split into overlapping windows
with `stride = max(1, words_per_chunk - words_overlap)`. -/
def splitLongText (cfg : ChunkerCfg) (meta : Meta) (secName : Option String)
    (text : String) : List Chunk :=
  let words := pyWords text
  if words.length ≤ wordsPerChunk cfg then
    [{ text := text, base := meta, sectionTag := some secName }]
  else
    splitLongGo meta secName words (wordsPerChunk cfg)
      (max 1 (wordsPerChunk cfg - wordsOverlap cfg)) 0 0 words.length

/-- Length of the leading run of `\d` digits. -/
def digitRun : List Char → Nat
  | [] => 0
  | c :: cs => if c.isDigit then digitRun cs + 1 else 0

/-- Length of the leading run of `\s` whitespace. -/
def spaceRun : List Char → Nat
  | [] => 0
  | c :: cs => if pyIsSpace c then spaceRun cs + 1 else 0

/-- Matcher for a pattern `LITERAL\d+` anchored at the head of `cs`:
returns the match length (literal plus the maximal digit run). -/
def litDigits (lit : List Char) (cs : List Char) : Option Nat :=
  if lit.isPrefixOf cs then
    let d := digitRun (cs.drop lit.length)
    if 0 < d then some (lit.length + d) else none
  else none

/-- `Section \d+` anchored at the head. -/
def matchSectionAt (cs : List Char) : Option Nat :=
  litDigits ("Section ".data) cs

/-- `Article \d+` anchored at the head. -/
def matchArticleAt (cs : List Char) : Option Nat :=
  litDigits ("Article ".data) cs

/-- `§\s*\d+` anchored at the head. -/
def matchParaAt : List Char → Option Nat
  | '§' :: rest =>
    let w := spaceRun rest
    let d := digitRun (rest.drop w)
    if 0 < d then some (1 + w + d) else none
  | _ => none

/-- `Clause \d+` anchored at the head. -/
def matchClauseAt (cs : List Char) : Option Nat :=
  litDigits ("Clause ".data) cs

/-- The split regex `(Section \d+|Article \d+|§\s*\d+|Clause \d+)`
anchored at the head: alternatives tried in order, as `re` does. -/
def matchSplitAt (cs : List Char) : Option Nat :=
  match matchSectionAt cs with
  | some n => some n
  | none =>
    match matchArticleAt cs with
    | some n => some n
    | none =>
      match matchParaAt cs with
      | some n => some n
      | none => matchClauseAt cs

/-- The numbered-heading pattern `\d+\.\s+[A-Z]` anchored at the head. -/
def matchNumberedAt (cs : List Char) : Bool :=
  let d := digitRun cs
  0 < d &&
    (match cs.drop d with
     | '.' :: rest =>
       let w := spaceRun rest
       0 < w &&
         (match rest.drop w with
          | c :: _ => decide ('A' ≤ c ∧ c ≤ 'Z')
          | [] => false)
     | _ => false)

/-- Whether any of the five `section_patterns` matches at this head. -/
def hasMarkerAt (cs : List Char) : Bool :=
  (matchSectionAt cs).isSome || (matchArticleAt cs).isSome ||
    (matchParaAt cs).isSome || (matchClauseAt cs).isSome || matchNumberedAt cs

/-- `LegalDocumentChunker._has_section_markers(text)`: `re.search` over
the whole text, i.e. some suffix matches some pattern. -/
def hasSectionMarkers (text : String) : Bool :=
  text.data.tails.any hasMarkerAt

/-- `re.split` with the capturing split pattern, fuel-indexed: scan left
to right; at the leftmost match emit the accumulated piece and the
separator, then continue after it.  Every step consumes at least one
character, so `cs.length` fuel suffices: when it runs out `cs = []`
and the fuel-0 branch coincides with the empty-input branch. -/
def pySplitGo : Nat → List Char → List Char → List String
  | 0, acc, _ => [String.mk acc.reverse]
  | fuel + 1, acc, cs =>
    match matchSplitAt cs with
    | some n =>
      String.mk acc.reverse :: String.mk (cs.take n) ::
        pySplitGo fuel [] (cs.drop n)
    | none =>
      match cs with
      | [] => [String.mk acc.reverse]
      | c :: rest => pySplitGo fuel (c :: acc) rest

/-- `self.split_pattern.split(text)`, separators included (the pattern
is one capturing group). -/
def pySplit (text : String) : List String :=
  pySplitGo text.data.length [] text.data

/-- The `for part in parts` loop of `_chunk_by_sections`: a part that
matches the split pattern at its start closes the current unit and
opens a new section; any other part is appended to the current unit;
the trailing unit is flushed at the end (only nonempty units are
flushed). -/
def chunkBySectionsGo (cfg : ChunkerCfg) (meta : Meta) :
    List String → Option String → String → List Chunk
  | [], curSec, curText =>
    if curText ≠ "" then splitLongText cfg meta curSec curText else []
  | part :: rest, curSec, curText =>
    if (matchSplitAt part.data).isSome then
      (if curText ≠ "" then splitLongText cfg meta curSec curText else []) ++
        chunkBySectionsGo cfg meta rest (some part) (part ++ "\n")
    else chunkBySectionsGo cfg meta rest curSec (curText ++ part)

/-- `LegalDocumentChunker._chunk_by_sections(text, metadata)`. -/
def chunkBySections (cfg : ChunkerCfg) (meta : Meta) (text : String) : List Chunk :=
  chunkBySectionsGo cfg meta (pySplit text) none ""

/-- `LegalDocumentChunker.chunk_document(text, metadata)`. -/
def chunkDocument (cfg : ChunkerCfg) (meta : Meta) (text : String) : List Chunk :=
  if hasSectionMarkers text then chunkBySections cfg meta text
  else chunkByTokens cfg meta text

/-! ### MMR selection — `RetrieverAgent.retrieve_with_mmr`

After fetching `2 × target_k` candidates the agent greedily selects:
start with the most relevant candidate, then repeatedly take the
remaining candidate maximising
`relevance − diversity_score × max_similarity_to_selected`, where
similarity is a lexical Jaccard coefficient over lowercase word sets.
Python's `best_score` starts at `-inf` and updates only on strict `>`,
so the first index attaining the maximum wins; we model the `-inf`
start by seeding the scan with the first remaining candidate, which
always beats `-inf`.  The selection is generic in the candidate type
and the relevance/similarity functions, instantiated below with the
enriched chunks. -/

/-- `RetrieverAgent._text_similarity`: Jaccard coefficient of the
lowercase word sets, `0` if either set is empty. -/
def textSimilarity (t1 t2 : String) : ℚ :=
  let w1 := (pyWords t1.toLower).toFinset
  let w2 := (pyWords t2.toLower).toFinset
  if w1 = ∅ ∨ w2 = ∅ then 0
  else ((w1 ∩ w2).card : ℚ) / ((w1 ∪ w2).card : ℚ)

/-- Python `max` over a nonempty list, given as head and tail. -/
def maxList : List ℚ → ℚ
  | [] => 0
  | a :: as => as.foldl max a

/-- The inner `for i, candidate in enumerate(remaining)` scan: running
best index `bi` and best score `bs`, updating only on strict `>`. -/
def bestLoop {α : Type} (f : α → ℚ) : List α → Nat → Nat → ℚ → Nat
  | [], _, bi, _ => bi
  | x :: xs, i, bi, bs =>
    if bs < f x then bestLoop f xs (i + 1) i (f x)
    else bestLoop f xs (i + 1) bi bs

/-- Index of the first maximum of `f` over `c :: cs` (the `-inf` seed
means index 0 always wins the first comparison). -/
def argmaxFirst {α : Type} (f : α → ℚ) (c : α) (cs : List α) : Nat :=
  bestLoop f cs 1 0 (f c)

/-- The `while len(selected) < target_k and remaining` loop, fuel-indexed
(each iteration pops one element of `remaining`, so `remaining.length`
fuel suffices). -/
def mmrGo {α : Type} (sim : α → α → ℚ) (rel : α → ℚ) (w : ℚ) (k : Nat) :
    Nat → List α → List α → List α
  | _, selected, [] => selected
  | 0, selected, _ :: _ => selected
  | fuel + 1, selected, c :: cs =>
    if selected.length < k then
      mmrGo sim rel w k fuel
        (selected ++
          [(c :: cs).getD
            (argmaxFirst (fun x => rel x - w * maxList (selected.map fun s => sim x s))
              c cs) c])
        ((c :: cs).eraseIdx
          (argmaxFirst (fun x => rel x - w * maxList (selected.map fun s => sim x s))
            c cs))
    else selected

/-- The MMR selection of `retrieve_with_mmr` on an already-retrieved
candidate pool: empty pool returns `[]`; otherwise seed with the most
relevant candidate, run the greedy loop, and return
`selected[:target_k]`. -/
def mmrSelect {α : Type} (sim : α → α → ℚ) (rel : α → ℚ) (w : ℚ) (k : Nat)
    (results : List α) : List α :=
  match results with
  | [] => []
  | r :: rest => (mmrGo sim rel w k rest.length [r] rest).take k

/-- `retrieve_with_mmr`'s selection instantiated with the enriched
chunks: lexical similarity on `text`, relevance from
`relevance_score`. -/
def retrieveMmr (w : ℚ) (k : Nat) (results : List RChunk) : List RChunk :=
  mmrSelect (fun a b => textSimilarity a.text b.text) (fun c => c.relevance) w k results

/-! ### Chat pipeline — `app/api/chat.py` and `app/agents/safety_agent.py`

`submit_query` runs safety → classification → retrieval → specialist →
verification → finalisation.  The LLM-dependent stages are abstracted
by an environment holding their outcomes; the model records which
stages were invoked and which `QueryHistory` rows were saved. -/

/-- `LEGAL_DISCLAIMER` from `app/agents/prompts.py`. -/
def LEGAL_DISCLAIMER : String :=
  "\nIMPORTANT LEGAL DISCLAIMER:\nThis platform provides general legal information and not legal advice. The information provided should not be relied upon as a substitute for consultations with qualified professionals who are familiar with your individual needs. Always consult a qualified attorney for specific legal matters.\n"

/-- The structured fields of a successfully parsed safety JSON reply. -/
structure SafetyParsed where
  safetyCheck : String
  reason : String
  suggestedAction : String
deriving DecidableEq

/-- `SafetyAgent.check_safety`'s result dict. -/
structure SafetyResult where
  safetyCheck : String
  reason : String
  suggestedAction : String
  disclaimerAdded : Bool
  disclaimerText : String
deriving DecidableEq

/-- `SafetyAgent.check_safety`: on a parsed reply, the parsed fields with
the disclaimer forced in; on any error (`parsed = none`), the
conservative `WARN` fallback (its `reason` interpolates the exception
text; we keep the fixed template). -/
def checkSafety (parsed : Option SafetyParsed) : SafetyResult :=
  match parsed with
  | some p =>
    { safetyCheck := p.safetyCheck, reason := p.reason,
      suggestedAction := p.suggestedAction,
      disclaimerAdded := true, disclaimerText := LEGAL_DISCLAIMER }
  | none =>
    { safetyCheck := "WARN",
      reason := "Safety check failed. Proceeding with caution.",
      suggestedAction := "Review response carefully and consult a legal professional.",
      disclaimerAdded := true, disclaimerText := LEGAL_DISCLAIMER }

/-- `SafetyAgent.should_refuse`. -/
def shouldRefuse (r : SafetyResult) : Bool :=
  r.safetyCheck == "REFUSE"

/-- The pipeline stages of `submit_query` that can be invoked. -/
inductive Stage where
  | safety
  | classification
  | retrieval
  | specialist
  | verification
deriving DecidableEq

/-- A response citation (`Citation` schema). -/
structure CitationM where
  source : String
  excerpt : String
  meta : Meta
deriving DecidableEq

/-- The `ChatResponse` returned by `submit_query`. -/
structure ChatResponseM where
  queryId : Nat
  queryText : String
  responseText : String
  intent : String
  agentsUsed : List String
  citations : List CitationM
  confidenceScore : ℚ
  safetyCheck : String
  disclaimer : String
  tokensUsed : Nat
  costEstimate : ℚ
deriving DecidableEq

/-- A saved `QueryHistory` row. -/
structure QueryRecordM where
  queryText : String
  responseText : String
  intentClassification : String
  agentsUsed : List String
  citations : List CitationM
  confidenceScore : ℚ
  totalTokens : Nat
  costEstimate : ℚ
  safetyTriggered : Option String
deriving DecidableEq

/-- Outcomes of the external stages of one `submit_query` run. -/
structure PipelineEnv where
  query : String
  includeCitations : Bool
  safetyParsed : Option SafetyParsed
  intent : String
  retrieved : List RChunk
  specialistText : String
  specialistTokens : Nat
  specialistCost : ℚ
  confidence : ℚ

/-- The specialist agent appended to `agents_used` for an intent. -/
def specialistAgentName (intent : String) : String :=
  if intent == "statutory_interpretation" then "statutory_interpreter"
  else if intent == "case_law_research" then "case_law_researcher"
  else if intent == "contract_analysis" then "contract_analyzer"
  else if intent == "compliance_check" then "compliance_agent"
  else "hybrid_legal_agent"

/-- `metadata.get("title", "Unknown")`. -/
def metaTitle (m : Meta) : String :=
  match metaGet m "title" with
  | some (MVal.str s) => s
  | _ => "Unknown"

/-- One `Citation(...)` built from a retrieved chunk. -/
def mkCitation (c : RChunk) : CitationM :=
  ⟨metaTitle c.meta, c.text.take 200 ++ "...", c.meta⟩

/-- The outcome of one `submit_query` run: the HTTP response, the stages
that were invoked, and the `QueryHistory` rows saved to the DB. -/
structure PipelineOut where
  resp : ChatResponseM
  stages : List Stage
  records : List QueryRecordM

/-- `submit_query(query_data, ...)`.  Mirrors the source: the safety
check runs first; on `REFUSE` the function returns immediately with a
refusal `ChatResponse` (`query_id=0`, zero token/cost counters, the
disclaimer attached) and nothing saved; otherwise classification,
retrieval, the matched specialist and verification run, the disclaimer
is appended, citations are trimmed to the top three retrieved chunks,
and exactly one `QueryHistory` row is saved. -/
def submitQuery (env : PipelineEnv) : PipelineOut :=
  let safety := checkSafety env.safetyParsed
  if shouldRefuse safety then
    { resp :=
        { queryId := 0, queryText := env.query,
          responseText :=
            "Request refused: " ++ safety.reason ++ "\n\n" ++ safety.suggestedAction,
          intent := "refused", agentsUsed := ["safety"], citations := [],
          confidenceScore := 0, safetyCheck := safety.safetyCheck,
          disclaimer := safety.disclaimerText, tokensUsed := 0, costEstimate := 0 },
      stages := [Stage.safety], records := [] }
  else
    let agentsUsed :=
      ["orchestrator", "safety", "retriever", specialistAgentName env.intent,
        "verification"]
    let finalResponse :=
      env.specialistText ++ "\n\n---\n\n" ++ safety.disclaimerText
    let citations :=
      if env.includeCitations then (env.retrieved.take 3).map mkCitation else []
    let record : QueryRecordM :=
      { queryText := env.query, responseText := finalResponse,
        intentClassification := env.intent, agentsUsed := agentsUsed,
        citations := citations, confidenceScore := env.confidence,
        totalTokens := env.specialistTokens, costEstimate := env.specialistCost,
        safetyTriggered :=
          if safety.safetyCheck ≠ "PASS" then some safety.safetyCheck else none }
    { resp :=
        { queryId := 1, queryText := env.query, responseText := finalResponse,
          intent := env.intent, agentsUsed := agentsUsed, citations := citations,
          confidenceScore := env.confidence, safetyCheck := safety.safetyCheck,
          disclaimer := safety.disclaimerText,
          tokensUsed := env.specialistTokens, costEstimate := env.specialistCost },
      stages := [Stage.safety, Stage.classification, Stage.retrieval,
        Stage.specialist, Stage.verification],
      records := [record] }

/-! ### Document ingestion — `process_document_task` in `app/api/documents.py` -/

/-- The persisted processing fields of a `Document` row
(`processing_status`, `processing_error`, `processed`, `chunk_count`). -/
structure DocState where
  status : String
  error : Option String
  processed : Bool
  chunkCount : Nat
deriving DecidableEq

/-- A fresh document row: `processing_status` defaults to `"queued"`. -/
def queuedDocState : DocState :=
  { status := "queued", error := none, processed := false, chunkCount := 0 }

/-- A produced chunk's metadata dict as stored in the vector store:
the copied base dict, the chunker's added keys, and the `"text"` key
that `process_document_task` adds before embedding. -/
def chunkStoredMeta (c : Chunk) : Meta :=
  c.base ++
    (match c.chunkIndex with
     | some i => [("chunk_index", MVal.int i)]
     | none => []) ++
    (match c.chunkType with
     | some t => [("chunk_type", MVal.str t)]
     | none => []) ++
    (match c.sectionTag with
     | some s =>
       [("section", match s with | some v => MVal.str v | none => MVal.null)]
     | none => []) ++
    (match c.subChunk with
     | some i => [("sub_chunk", MVal.int i)]
     | none => []) ++
    [("text", MVal.str c.text)]

/-- `process_document_task(document_id, file_path, organization_id)`.
`extract` is the outcome of `document_processor.extract_text` (`.error`
models the call raising).  Mirrors the source: the status is advanced
to `"extracting"`, `"chunking"`, `"embedding"` before each stage; on
success it becomes `"completed"` with `processed=True` and the chunk
count stored; if `add_documents` returns `False` the error message is
stored and the status stays `"embedding"`; if extraction raises, the
`except` clause stores the exception text and the status stays at
`"extracting"` — no branch ever writes `"error"` and nothing is
retried. -/
def processDocumentTask (cfg : ChunkerCfg) (embed : Nat → Vec) (ok : EmbedOracle)
    (store : Option OrgStore) (extract : Except String String) (meta : Meta)
    (st : DocState) : DocState × Option OrgStore :=
  match extract with
  | Except.error e => ({ st with status := "extracting", error := some e }, store)
  | Except.ok text =>
    let chunks := (chunkDocument cfg meta text).map fun c => (c.text, chunkStoredMeta c)
    let res := addDocuments embed ok store chunks
    if res.1 then
      ({ st with
          status := "completed"
          processed := true
          chunkCount := chunks.length }, res.2)
    else
      ({ st with
          status := "embedding"
          error := some "Failed to add to vector store" }, res.2)

/-! ## Claims -/

/-! ### C9 — adaptive batch embedding -/

/-- C9: for a batch of 7 texts where the provider fails every batch-size-5
and batch-size-2 request but succeeds at batch size 1, `embed_batch`
returns exactly 7 embeddings, each at the position of its source text
(`[0,…,6]`); an item for which every batch size fails (here index 1 of
3) is skipped and omitted from the output (`[0, 2]`); and in general the
output lists source positions in strictly increasing order, never longer
than the input. -/
theorem embed_batch_scenario (ok : EmbedOracle) (n : Nat) :
    embedBatch (fun _ s => s == 1) 7 = [0, 1, 2, 3, 4, 5, 6] ∧
    embedBatch (fun i s => s == 1 && !(i == 1)) 3 = [0, 2] ∧
    (embedBatch ok n).length ≤ n ∧
    (embedBatch ok n).Pairwise (· < ·) ∧
    ∀ j ∈ embedBatch ok n, j < n := by
  refine ⟨by decide, by decide, ?_, embedBatchGo_pairwise ok n n 0, ?_⟩
  · have := embedBatchGo_length ok n n 0
    simpa [embedBatch] using this
  · intro j hj
    exact (embedBatchGo_mem_bounds ok n n 0 j hj).2

/-- Witness: the general conjuncts applied at a concrete oracle. -/
theorem embed_batch_scenario_witness :
    (embedBatch (fun _ _ => true) 4).length ≤ 4 :=
  (embed_batch_scenario (fun _ _ => true) 4).2.2.1

/-! ### C1 — metadata list vs. vector count after `add_documents` -/

/-- Oracle for the C1 counterexample: only the single-text attempt at
index 0 succeeds; every attempt covering index 1 fails, so chunk 1 is
skipped while its metadata is still appended. -/
def c1Oracle : EmbedOracle := fun i s => i == 0 && s == 1

/-- Two chunks for the C1 counterexample. -/
def c1Chunks : List (String × Meta) := [("alpha", []), ("beta", [])]

/-- C1 counterexample: with one of two chunks skipped by `embed_batch`,
`add_documents` still returns `True`, yet the metadata list has 2
entries while the index holds 1 vector — the claimed invariant
`len(metadatas[org]) == indexes[org].ntotal` fails exactly in the
skip case the claim says it covers. -/
theorem add_documents_mismatch_counterexample :
    (addDocuments (fun _ => [1]) c1Oracle none c1Chunks).1 = true ∧
    (addDocuments (fun _ => [1]) c1Oracle none c1Chunks).2
      = some ⟨[[1]], [[], []]⟩ ∧
    (OrgStore.mk [[1]] [[], []]).metas.length = 2 ∧
    (OrgStore.mk [[1]] [[], []]).ntotal = 1 := by
  decide

/-- C1 (amended): after `add_documents` returns `True`, the metadata
length and the vector count differ exactly by the number of skipped
chunks; in particular the invariant `len(metadatas) = ntotal` is
preserved precisely when `embed_batch` returned one embedding per chunk
(no chunk was skipped). -/
theorem add_documents_metadata_count (embed : Nat → Vec) (ok : EmbedOracle)
    (st : Option OrgStore) (chunks : List (String × Meta))
    (hinv : ∀ s, st = some s → s.metas.length = s.ntotal) :
    ((addDocuments embed ok st chunks).1 = true →
      ∀ s', (addDocuments embed ok st chunks).2 = some s' →
        s'.metas.length + (embedBatch ok chunks.length).length
          = s'.ntotal + chunks.length) ∧
    ((embedBatch ok chunks.length).length = chunks.length →
      (addDocuments embed ok st chunks).1 = true →
      ∀ s', (addDocuments embed ok st chunks).2 = some s' →
        s'.metas.length = s'.ntotal) := by
  have main : (addDocuments embed ok st chunks).1 = true →
      ∀ s', (addDocuments embed ok st chunks).2 = some s' →
        s'.metas.length + (embedBatch ok chunks.length).length
          = s'.ntotal + chunks.length := by
    intro htrue s' hs'
    unfold addDocuments at htrue hs'
    by_cases hempty : chunks.isEmpty = true
    · rw [if_pos hempty] at htrue; simp at htrue
    · rw [if_neg hempty] at htrue hs'
      by_cases hidx : (embedBatch ok chunks.length).isEmpty = true
      · rw [if_pos hidx] at htrue; simp at htrue
      · rw [if_neg hidx] at hs'
        simp only [Option.some.injEq] at hs'
        subst hs'
        simp only [OrgStore.ntotal, List.length_append, List.length_map]
        cases st with
        | none => simp [Nat.add_comm]
        | some s =>
          have := hinv s rfl
          simp only [Option.getD_some]
          unfold OrgStore.ntotal at this
          omega
  exact ⟨main, fun hlen htrue s' hs' => by have := main htrue s' hs'; omega⟩

/-- Witness: with an always-succeeding provider on one chunk, the
amended invariant holds after the add. -/
theorem add_documents_metadata_count_witness :
    (addDocuments (fun _ => [1]) (fun _ _ => true) none [("a", [])]).2
      = some ⟨[[1]], [[]]⟩ ∧
    (OrgStore.mk [[1]] [[]]).metas.length = (OrgStore.mk [[1]] [[]]).ntotal :=
  ⟨by decide,
    (add_documents_metadata_count (fun _ => [1]) (fun _ _ => true) none
        [("a", [])] (fun s h => by simp at h)).2 (by decide) (by decide)
      ⟨[[1]], [[]]⟩ (by decide)⟩

/-! ### C3 — `delete_document` never rebuilds -/

/-- Store for the C3 counterexample: one vector whose metadata carries
`document_id = 1`. -/
def c3Store : OrgStore := ⟨[[1]], [[("document_id", MVal.int 1)]]⟩

/-- C3: `delete_document` finds the matching chunk and returns success,
but the state is completely unchanged — the chunk whose metadata
carries the document id is still in both the index and the metadata
list (the rebuild is an unimplemented `TODO` in the source).  The
no-match side behaves as claimed: deleting a missing document id
returns failure. -/
theorem delete_document_no_rebuild :
    deleteDocument (some c3Store) 1 = (true, some c3Store) ∧
    (c3Store.metas.any fun m => metaGet m "document_id" == some (MVal.int 1))
      = true ∧
    c3Store.ntotal = 1 ∧
    deleteDocument (some c3Store) 2 = (false, some c3Store) := by
  decide

/-! ### C6 — ingestion failures and the document status -/

/-- C6 counterexample: when text extraction raises, the task stores the
failure message in `processing_error` but leaves `processing_status` at
`"extracting"` — the status never becomes `"error"`. -/
theorem ingestion_error_status_counterexample :
    (processDocumentTask ⟨600, 100⟩ (fun _ => [1]) (fun _ _ => true) none
        (Except.error "boom") [] queuedDocState).1
      = { status := "extracting", error := some "boom",
          processed := false, chunkCount := 0 } ∧
    ¬ (processDocumentTask ⟨600, 100⟩ (fun _ => [1]) (fun _ _ => true) none
        (Except.error "boom") [] queuedDocState).1.status = "error" := by
  decide

/-- C6 (amended): an ingestion failure is terminal for the document —
the failure message is stored in `processing_error` and nothing retries
— but the status is left at the stage that failed (`"extracting"` when
extraction raises, `"embedding"` when the vector-store add fails); no
branch of the task ever sets the status to `"error"`. -/
theorem ingestion_failure_terminal (cfg : ChunkerCfg) (embed : Nat → Vec)
    (ok : EmbedOracle) (store : Option OrgStore) (meta : Meta) (st : DocState) :
    (∀ e, (processDocumentTask cfg embed ok store (Except.error e) meta st).1
        = { st with status := "extracting", error := some e }) ∧
    (∀ text,
      (addDocuments embed ok store
          ((chunkDocument cfg meta text).map fun c => (c.text, chunkStoredMeta c))).1
        = false →
      (processDocumentTask cfg embed ok store (Except.ok text) meta st).1
        = { st with
            status := "embedding"
            error := some "Failed to add to vector store" }) ∧
    (∀ ext : Except String String,
      (processDocumentTask cfg embed ok store ext meta st).1.status ≠ "error") := by
  refine ⟨fun e => rfl, ?_, ?_⟩
  · intro text hfail
    unfold processDocumentTask
    simp only [hfail, Bool.false_eq_true, if_false]
  · intro ext
    cases ext with
    | error e => simp [processDocumentTask]
    | ok text =>
      unfold processDocumentTask
      by_cases hadd :
          (addDocuments embed ok store
            ((chunkDocument cfg meta text).map fun c => (c.text, chunkStoredMeta c))).1 = true
      · simp [hadd]
      · simp only [Bool.not_eq_true] at hadd
        simp [hadd]

/-- Witness: the amended statement at a concrete failing extraction. -/
theorem ingestion_failure_terminal_witness :
    (processDocumentTask ⟨600, 100⟩ (fun _ => [1]) (fun _ _ => false) none
        (Except.error "nope") [] queuedDocState).1
      = { queuedDocState with status := "extracting", error := some "nope" } :=
  (ingestion_failure_terminal ⟨600, 100⟩ (fun _ => [1]) (fun _ _ => false) none
    [] queuedDocState).1 "nope"

/-! ### C2 — safety REFUSE short-circuits the pipeline -/

/-- Helper: both branches of `check_safety` attach the legal
disclaimer. -/
theorem checkSafety_disclaimer (p : Option SafetyParsed) :
    (checkSafety p).disclaimerText = LEGAL_DISCLAIMER := by
  cases p <;> rfl

/-- C2: when the safety check comes back `REFUSE`, `submit_query`
returns at once: only the safety stage is invoked (no retrieval, no
specialist, no verification), the returned token and cost counters are
exactly zero, the response is the refusal response, and the disclaimer
is still attached. -/
theorem refuse_short_circuit (env : PipelineEnv)
    (h : shouldRefuse (checkSafety env.safetyParsed) = true) :
    (submitQuery env).stages = [Stage.safety] ∧
    Stage.retrieval ∉ (submitQuery env).stages ∧
    Stage.specialist ∉ (submitQuery env).stages ∧
    Stage.verification ∉ (submitQuery env).stages ∧
    (submitQuery env).resp.tokensUsed = 0 ∧
    (submitQuery env).resp.costEstimate = 0 ∧
    (submitQuery env).resp.intent = "refused" ∧
    (submitQuery env).resp.disclaimer = LEGAL_DISCLAIMER := by
  unfold submitQuery
  rw [if_pos h]
  refine ⟨rfl, ?_, ?_, ?_, rfl, rfl, rfl, ?_⟩
  · show Stage.retrieval ∉ [Stage.safety]; decide
  · show Stage.specialist ∉ [Stage.safety]; decide
  · show Stage.verification ∉ [Stage.safety]; decide
  · exact checkSafety_disclaimer env.safetyParsed

/-- Witness: the short-circuit at a concrete refused query. -/
theorem refuse_short_circuit_witness :
    (submitQuery
        ⟨"q", false, some ⟨"REFUSE", "r", "a"⟩, "general_legal", [], "", 0, 0, 0⟩).stages
      = [Stage.safety] :=
  (refuse_short_circuit
    ⟨"q", false, some ⟨"REFUSE", "r", "a"⟩, "general_legal", [], "", 0, 0, 0⟩
    (by decide)).1

/-! ### C5 — query records -/

/-- A concrete refused run for the C5 counterexample. -/
def refuseEnv : PipelineEnv :=
  ⟨"How do I do this?", true, some ⟨"REFUSE", "unsafe", "consult a professional"⟩,
    "general_legal", [], "", 0, 0, 0⟩

/-- C5 counterexample: a refused pipeline run creates *no* query record
— the refusal path returns a `ChatResponse` with `query_id=0` without
touching the database, contradicting "a refused run also produces a
Query Record". -/
theorem refused_run_saves_no_record :
    shouldRefuse (checkSafety refuseEnv.safetyParsed) = true ∧
    ¬ (submitQuery refuseEnv).records.length = 1 := by
  decide

/-- C5 (amended): every pipeline run that completes (is not refused)
creates exactly one query record, capturing the query text, final
response, intent, agents invoked, citations, confidence score,
token/cost counters and safety flag of the run; a refused run creates
none. -/
theorem query_record_per_run (env : PipelineEnv) :
    (shouldRefuse (checkSafety env.safetyParsed) = false →
      (submitQuery env).records.length = 1 ∧
      ∀ r ∈ (submitQuery env).records,
        r.queryText = env.query ∧
        r.responseText = (submitQuery env).resp.responseText ∧
        r.intentClassification = (submitQuery env).resp.intent ∧
        r.agentsUsed = (submitQuery env).resp.agentsUsed ∧
        r.citations = (submitQuery env).resp.citations ∧
        r.confidenceScore = (submitQuery env).resp.confidenceScore ∧
        r.totalTokens = (submitQuery env).resp.tokensUsed ∧
        r.costEstimate = (submitQuery env).resp.costEstimate ∧
        (r.safetyTriggered = none ∨
          r.safetyTriggered = some (submitQuery env).resp.safetyCheck)) ∧
    (shouldRefuse (checkSafety env.safetyParsed) = true →
      (submitQuery env).records = []) := by
  constructor
  · intro hno
    unfold submitQuery
    rw [if_neg (by simp [hno])]
    refine ⟨rfl, ?_⟩
    intro r hr
    simp only [List.mem_singleton] at hr
    subst hr
    refine ⟨rfl, rfl, rfl, rfl, rfl, rfl, rfl, rfl, ?_⟩
    by_cases hp : (checkSafety env.safetyParsed).safetyCheck = "PASS"
    · left; simp [hp]
    · right; simp [hp]
  · intro hyes
    unfold submitQuery
    rw [if_pos hyes]

/-- Witness: a completed (non-refused) run at a concrete environment
saves exactly one record. -/
theorem query_record_per_run_witness :
    (submitQuery
        ⟨"q", false, some ⟨"PASS", "", ""⟩, "general_legal", [], "ans", 3, 1, 1⟩).records.length
      = 1 :=
  ((query_record_per_run
      ⟨"q", false, some ⟨"PASS", "", ""⟩, "general_legal", [], "ans", 3, 1, 1⟩).1
    (by decide)).1

/-! ### C7 — `_chunk_by_tokens` terminates with the stride floor -/

/-- Any fuel of at least `words.length - start` computes the same
sliding-window result: the loop halts within that many iterations
because the clamped stride advances `start` by at least 1. -/
theorem chunkByTokensGo_congr (meta : Meta) (words : List String) (wpc wo : Nat) :
    ∀ f₁ f₂ start cidx, words.length - start ≤ f₁ → words.length - start ≤ f₂ →
      chunkByTokensGo meta words wpc wo start cidx f₁
        = chunkByTokensGo meta words wpc wo start cidx f₂ := by
  intro f₁
  induction f₁ with
  | zero =>
    intro f₂ start cidx h₁ h₂
    have hs : ¬ start < words.length := by omega
    cases f₂ with
    | zero => rfl
    | succ f₂ => simp only [chunkByTokensGo]; rw [if_neg hs]
  | succ f₁ ih =>
    intro f₂ start cidx h₁ h₂
    cases f₂ with
    | zero =>
      have hs : ¬ start < words.length := by omega
      simp only [chunkByTokensGo]; rw [if_neg hs]
    | succ f₂ =>
      by_cases hs : start < words.length
      · simp only [chunkByTokensGo]
        rw [if_pos hs, if_pos hs]
        by_cases he : min (start + wpc) words.length ≥ words.length
        · rw [if_pos he, if_pos he]
        · rw [if_neg he, if_neg he]
          have hstride : 1 ≤ max 1 (wpc - wo) := le_max_left 1 _
          rw [ih f₂ (start + max 1 (wpc - wo)) (cidx + 1) (by omega) (by omega)]
      · simp only [chunkByTokensGo]; rw [if_neg hs, if_neg hs]

/-- The sliding-window loop emits at most `words.length - start` chunks. -/
theorem chunkByTokensGo_length (meta : Meta) (words : List String) (wpc wo : Nat) :
    ∀ fuel start cidx,
      (chunkByTokensGo meta words wpc wo start cidx fuel).length
        ≤ words.length - start := by
  intro fuel
  induction fuel with
  | zero => intro start cidx; simp [chunkByTokensGo]
  | succ fuel ih =>
    intro start cidx
    by_cases hs : start < words.length
    · simp only [chunkByTokensGo]
      rw [if_pos hs]
      by_cases he : min (start + wpc) words.length ≥ words.length
      · rw [if_pos he]
        simp only [List.length_singleton]
        omega
      · rw [if_neg he]
        simp only [List.length_cons]
        have hstride : 1 ≤ max 1 (wpc - wo) := le_max_left 1 _
        have := ih (start + max 1 (wpc - wo)) (cidx + 1)
        omega
    · simp only [chunkByTokensGo]
      rw [if_neg hs]
      simp

/-- C7: with overlap at least the window size the stride
`words_per_chunk − words_overlap` is clamped to 1, and for every input
text the sliding-window loop of `_chunk_by_tokens` terminates within
`len(words)` iterations — any fuel of at least that many steps yields
the same (finite) chunk list, which has at most `len(words)` chunks. -/
theorem chunk_by_tokens_terminates (cfg : ChunkerCfg) (meta : Meta)
    (h : wordsPerChunk cfg ≤ wordsOverlap cfg) :
    max 1 (wordsPerChunk cfg - wordsOverlap cfg) = 1 ∧
    (∀ text fuel, (pyWords text).length ≤ fuel →
      chunkByTokensGo meta (pyWords text) (wordsPerChunk cfg) (wordsOverlap cfg)
          0 0 fuel
        = chunkByTokens cfg meta text) ∧
    (∀ text, (chunkByTokens cfg meta text).length ≤ (pyWords text).length) := by
  refine ⟨?_, ?_, ?_⟩
  · have : wordsPerChunk cfg - wordsOverlap cfg = 0 := by omega
    rw [this]
    exact Nat.max_eq_left (Nat.zero_le 1)
  · intro text fuel hf
    unfold chunkByTokens
    by_cases h0 : (pyWords text).length = 0
    · rw [if_pos h0]
      have : ∀ g, chunkByTokensGo meta (pyWords text) (wordsPerChunk cfg)
          (wordsOverlap cfg) 0 0 g = [] := by
        intro g
        cases g with
        | zero => rfl
        | succ g =>
          simp only [chunkByTokensGo]
          rw [if_neg (by omega)]
      exact this fuel
    · rw [if_neg h0]
      exact chunkByTokensGo_congr meta (pyWords text) (wordsPerChunk cfg)
        (wordsOverlap cfg) fuel (pyWords text).length 0 0 (by omega) (by omega)
  · intro text
    unfold chunkByTokens
    by_cases h0 : (pyWords text).length = 0
    · rw [if_pos h0]; simp
    · rw [if_neg h0]
      have := chunkByTokensGo_length meta (pyWords text) (wordsPerChunk cfg)
        (wordsOverlap cfg) (pyWords text).length 0 0
      omega

/-- Witness: overlap 8 ≥ window 4 (so 6 ≥ 3 in words); the loop on a
three-word text is fuel-independent and of bounded length. -/
theorem chunk_by_tokens_terminates_witness :
    max 1 (wordsPerChunk ⟨4, 8⟩ - wordsOverlap ⟨4, 8⟩) = 1 ∧
    (chunkByTokens ⟨4, 8⟩ [] "alpha beta gamma").length
      ≤ (pyWords "alpha beta gamma").length :=
  ⟨(chunk_by_tokens_terminates ⟨4, 8⟩ [] (by decide)).1,
    (chunk_by_tokens_terminates ⟨4, 8⟩ [] (by decide)).2.2 "alpha beta gamma"⟩

/-! ### C10 — numbered headings are detected but never split on -/

/-- If no suffix of `cs` matches the split pattern, `re.split` returns
the whole input as a single piece. -/
theorem pySplitGo_no_match :
    ∀ fuel acc cs, (∀ t : List Char, t <:+ cs → matchSplitAt t = none) →
      cs.length ≤ fuel →
      pySplitGo fuel acc cs = [String.mk (acc.reverse ++ cs)] := by
  intro fuel
  induction fuel with
  | zero =>
    intro acc cs h hlen
    have : cs = [] := List.length_eq_zero.mp (by omega)
    subst this
    simp [pySplitGo]
  | succ fuel ih =>
    intro acc cs h hlen
    have hm : matchSplitAt cs = none := h cs (List.suffix_refl cs)
    simp only [pySplitGo, hm]
    cases cs with
    | nil => simp
    | cons c rest =>
      show pySplitGo fuel (c :: acc) rest = [String.mk (acc.reverse ++ c :: rest)]
      rw [ih (c :: acc) rest
        (fun t ht => h t (ht.trans (List.suffix_cons c rest)))
        (by simpa using Nat.le_of_succ_le_succ hlen)]
      simp

/-- Every chunk of the long-split loop carries the given section name. -/
theorem splitLongGo_section (meta : Meta) (secName : Option String)
    (words : List String) (wpc stride : Nat) :
    ∀ fuel start sub, ∀ c ∈ splitLongGo meta secName words wpc stride start sub fuel,
      c.sectionTag = some secName := by
  intro fuel
  induction fuel with
  | zero => intro start sub c hc; simp [splitLongGo] at hc
  | succ fuel ih =>
    intro start sub c hc
    simp only [splitLongGo] at hc
    by_cases hs : start < words.length
    · rw [if_pos hs] at hc
      by_cases he : min (start + wpc) words.length ≥ words.length
      · rw [if_pos he] at hc
        simp only [List.mem_singleton] at hc
        subst hc; rfl
      · rw [if_neg he] at hc
        rcases List.mem_cons.mp hc with hc | hc
        · subst hc; rfl
        · exact ih _ _ c hc
    · rw [if_neg hs] at hc
      simp at hc

/-- Every chunk produced by `_split_long_text` carries the given section
name (possibly `None`). -/
theorem splitLongText_section (cfg : ChunkerCfg) (meta : Meta)
    (secName : Option String) (text : String) :
    ∀ c ∈ splitLongText cfg meta secName text, c.sectionTag = some secName := by
  intro c hc
  unfold splitLongText at hc
  by_cases hshort : (pyWords text).length ≤ wordsPerChunk cfg
  · rw [if_pos hshort] at hc
    simp only [List.mem_singleton] at hc
    subst hc; rfl
  · rw [if_neg hshort] at hc
    exact splitLongGo_section meta secName (pyWords text) (wordsPerChunk cfg)
      (max 1 (wordsPerChunk cfg - wordsOverlap cfg)) (pyWords text).length 0 0 c hc

/-- C10: a text whose only structural marker is a numbered heading
(`\d+\.\s+[A-Z]` matches some suffix, the four split alternatives match
none) is routed to section-based chunking, but the split pattern finds
nothing: the whole text is handed to `_split_long_text` as one unit
with section name `None`, so every produced chunk carries
`section = None`. -/
theorem numbered_heading_not_split (cfg : ChunkerCfg) (meta : Meta) (text : String)
    (hnum : text.data.tails.any matchNumberedAt = true)
    (hnsm : ∀ t ∈ text.data.tails, matchSplitAt t = none) :
    chunkDocument cfg meta text = splitLongText cfg meta none text ∧
    ∀ c ∈ chunkDocument cfg meta text, c.sectionTag = some none := by
  obtain ⟨l⟩ := text
  have hns : ∀ t : List Char, t <:+ l → matchSplitAt t = none :=
    fun t ht => hnsm t ((List.mem_tails t l).mpr ht)
  rw [List.any_eq_true] at hnum
  obtain ⟨t, htmem, htb⟩ := hnum
  have htne : t ≠ [] := by
    intro h; subst h; exact absurd htb (by decide)
  have hlne : l ≠ [] := by
    intro h
    subst h
    have : t = [] := by simpa using htmem
    exact htne this
  have hmarkers : hasSectionMarkers (String.mk l) = true := by
    unfold hasSectionMarkers
    rw [List.any_eq_true]
    refine ⟨t, htmem, ?_⟩
    unfold hasMarkerAt
    rw [htb]
    simp
  have hsplit : pySplit (String.mk l) = [String.mk l] := by
    unfold pySplit
    rw [pySplitGo_no_match l.length [] l hns (le_refl _)]
    simp
  have hmain : chunkDocument cfg meta (String.mk l)
      = splitLongText cfg meta none (String.mk l) := by
    unfold chunkDocument
    rw [if_pos hmarkers]
    unfold chunkBySections
    rw [hsplit]
    unfold chunkBySectionsGo
    have hm0 : matchSplitAt (String.mk l).data = none := hns l (List.suffix_refl l)
    rw [hm0]
    simp only [Option.isSome_none, Bool.false_eq_true, if_false]
    unfold chunkBySectionsGo
    have hne : ("" ++ String.mk l) ≠ "" := by
      intro h
      rw [show ("" : String) = String.mk [] from rfl] at h
      exact hlne (by injection h)
    rw [if_pos hne]
    rfl
  exact ⟨hmain, fun c hc => by
    rw [hmain] at hc
    exact splitLongText_section cfg meta none (String.mk l) c hc⟩

/-- Witness: a concrete text with only a numbered heading comes out as
one unit whose chunks carry `section = None`. -/
theorem numbered_heading_not_split_witness :
    chunkDocument ⟨600, 100⟩ [] "1. Introduction to the law"
      = splitLongText ⟨600, 100⟩ [] none "1. Introduction to the law" :=
  (numbered_heading_not_split ⟨600, 100⟩ [] "1. Introduction to the law"
    (by decide) (by decide)).1

/-! ### C8 — MMR selection properties -/

/-- The best-index scan stays below `i + xs.length` when it starts below
`i`. -/
theorem bestLoop_lt {α : Type} (f : α → ℚ) :
    ∀ (xs : List α) (i bi : Nat) (bs : ℚ), bi < i →
      bestLoop f xs i bi bs < i + xs.length := by
  intro xs
  induction xs with
  | nil => intro i bi bs h; simpa [bestLoop] using h
  | cons x xs ih =>
    intro i bi bs h
    simp only [bestLoop]
    by_cases hlt : bs < f x
    · rw [if_pos hlt]
      have := ih (i + 1) i (f x) (by omega)
      simp only [List.length_cons]
      omega
    · rw [if_neg hlt]
      have := ih (i + 1) bi bs (by omega)
      simp only [List.length_cons]
      omega

/-- The chosen index is always a valid position of `c :: cs`. -/
theorem argmaxFirst_lt {α : Type} (f : α → ℚ) (c : α) (cs : List α) :
    argmaxFirst f c cs < (c :: cs).length := by
  have := bestLoop_lt f cs 1 0 (f c) (by omega)
  simp only [argmaxFirst, List.length_cons]
  omega

/-- The scan keeps the running best when nothing beats it strictly. -/
theorem bestLoop_le_const {α : Type} (f : α → ℚ) :
    ∀ (xs : List α) (i bi : Nat) (bs : ℚ), (∀ x ∈ xs, f x ≤ bs) →
      bestLoop f xs i bi bs = bi := by
  intro xs
  induction xs with
  | nil => intro i bi bs _; rfl
  | cons x xs ih =>
    intro i bi bs h
    simp only [bestLoop]
    rw [if_neg (by
      have := h x (List.mem_cons_self x xs)
      exact not_lt.mpr this)]
    exact ih (i + 1) bi bs fun y hy => h y (List.mem_cons_of_mem x hy)

/-- When the seed already attains the maximum, the first index wins
(strict `>` never fires). -/
theorem argmaxFirst_head {α : Type} (f : α → ℚ) (c : α) (cs : List α)
    (h : ∀ x ∈ cs, f x ≤ f c) : argmaxFirst f c cs = 0 :=
  bestLoop_le_const f cs 1 0 (f c) h

/-- Popping position `b` of a list and re-consing the popped element is
a permutation of the list. -/
theorem getD_cons_eraseIdx_perm {α : Type} (d : α) :
    ∀ (l : List α) (b : Nat), b < l.length →
      (l.getD b d :: l.eraseIdx b).Perm l := by
  intro l
  induction l with
  | nil => intro b h; simp at h
  | cons a rest ih =>
    intro b h
    cases b with
    | zero => exact List.Perm.refl _
    | succ b =>
      have hb : b < rest.length := by simpa using h
      exact (List.Perm.swap a (rest.getD b d) (rest.eraseIdx b)).trans
        ((ih b hb).cons a)

/-- The MMR loop only rearranges: its output extends `selected` by a
subset of `remaining`. -/
theorem mmrGo_perm {α : Type} (sim : α → α → ℚ) (rel : α → ℚ) (w : ℚ) (k : Nat) :
    ∀ (fuel : Nat) (sel rem : List α),
      ∃ rest : List α, (mmrGo sim rel w k fuel sel rem ++ rest).Perm (sel ++ rem) := by
  intro fuel
  induction fuel with
  | zero =>
    intro sel rem
    cases rem with
    | nil =>
      refine ⟨[], ?_⟩
      simp only [mmrGo, List.append_nil]
      exact List.Perm.refl _
    | cons c cs => exact ⟨c :: cs, List.Perm.refl _⟩
  | succ fuel ih =>
    intro sel rem
    cases rem with
    | nil =>
      refine ⟨[], ?_⟩
      simp only [mmrGo, List.append_nil]
      exact List.Perm.refl _
    | cons c cs =>
      by_cases hk : sel.length < k
      · simp only [mmrGo]
        rw [if_pos hk]
        obtain ⟨rest, hperm⟩ := ih
          (sel ++
            [(c :: cs).getD
              (argmaxFirst (fun x => rel x - w * maxList (sel.map fun s => sim x s))
                c cs) c])
          ((c :: cs).eraseIdx
            (argmaxFirst (fun x => rel x - w * maxList (sel.map fun s => sim x s))
              c cs))
        refine ⟨rest, hperm.trans ?_⟩
        rw [List.append_assoc]
        exact List.Perm.append_left sel
          (getD_cons_eraseIdx_perm c (c :: cs) _ (argmaxFirst_lt _ c cs))
      · simp only [mmrGo]
        rw [if_neg hk]
        exact ⟨c :: cs, List.Perm.refl _⟩

/-- With `diversity_weight = 0` and a pool already sorted by descending
relevance, the greedy loop appends the pool in order, truncated to the
remaining capacity. -/
theorem mmrGo_zero {α : Type} (sim : α → α → ℚ) (rel : α → ℚ) (k : Nat) :
    ∀ (fuel : Nat) (rem sel : List α), rem.length ≤ fuel →
      rem.Pairwise (fun a b => rel b ≤ rel a) →
      mmrGo sim rel 0 k fuel sel rem = sel ++ rem.take (k - sel.length) := by
  intro fuel
  induction fuel with
  | zero =>
    intro rem sel hlen _
    have : rem = [] := List.length_eq_zero.mp (by omega)
    subst this
    simp [mmrGo]
  | succ fuel ih =>
    intro rem sel hlen hp
    cases rem with
    | nil => simp [mmrGo]
    | cons c cs =>
      by_cases hk : sel.length < k
      · simp only [mmrGo]
        rw [if_pos hk]
        have hb : argmaxFirst
            (fun x => rel x - 0 * maxList (sel.map fun s => sim x s)) c cs = 0 := by
          apply argmaxFirst_head
          intro x hx
          have hrel : rel x ≤ rel c := (List.pairwise_cons.mp hp).1 x hx
          simpa using hrel
        rw [hb]
        show mmrGo sim rel 0 k fuel (sel ++ [c]) cs
          = sel ++ (c :: cs).take (k - sel.length)
        rw [ih cs (sel ++ [c]) (by simpa using Nat.le_of_succ_le_succ hlen)
          (List.pairwise_cons.mp hp).2]
        have hk1 : k - sel.length = (k - (sel.length + 1)) + 1 := by omega
        rw [hk1, List.take_succ_cons, List.append_assoc, List.singleton_append,
          List.length_append, List.length_singleton]
      · simp only [mmrGo]
        rw [if_neg hk]
        have h0 : k - sel.length = 0 := by omega
        rw [h0]
        simp

/-- With `diversity_weight = 0` the whole selection is the plain
relevance ranking truncated to `target_k`. -/
theorem mmrSelect_zero {α : Type} (sim : α → α → ℚ) (rel : α → ℚ) (k : Nat)
    (results : List α) (hp : results.Pairwise (fun a b => rel b ≤ rel a)) :
    mmrSelect sim rel 0 k results = results.take k := by
  cases results with
  | nil => simp [mmrSelect]
  | cons r rest =>
    simp only [mmrSelect]
    rw [mmrGo_zero sim rel k rest.length rest [r] (le_refl _)
      (List.pairwise_cons.mp hp).2]
    cases k with
    | zero => simp
    | succ k' =>
      simp [List.take_succ_cons, List.take_take]

/-- C8: the MMR selection of `retrieve_with_mmr` never returns the same
chunk twice (on a duplicate-free pool), never returns more than
`target_k` results, and with `diversity_weight = 0` returns exactly the
first `target_k` candidates of the descending-relevance ranking. -/
theorem mmr_selection_props (w : ℚ) (k : Nat) (results : List RChunk)
    (hnd : results.Nodup)
    (hsorted : results.Pairwise (fun a b => b.relevance ≤ a.relevance)) :
    (retrieveMmr w k results).Nodup ∧
    (retrieveMmr w k results).length ≤ k ∧
    retrieveMmr 0 k results = results.take k := by
  refine ⟨?_, ?_, ?_⟩
  · unfold retrieveMmr mmrSelect
    cases results with
    | nil => simp
    | cons r rest =>
      obtain ⟨restL, hperm⟩ :=
        mmrGo_perm (fun a b => textSimilarity a.text b.text)
          (fun c => c.relevance) w k rest.length [r] rest
      have hall : (mmrGo (fun a b => textSimilarity a.text b.text)
          (fun c => c.relevance) w k rest.length [r] rest ++ restL).Nodup :=
        hperm.nodup_iff.mpr hnd
      exact (List.take_sublist k _).nodup (hall.of_append_left)
  · unfold retrieveMmr mmrSelect
    cases results with
    | nil => simp
    | cons r rest =>
      simp only [List.length_take]
      omega
  · exact mmrSelect_zero _ _ k results hsorted

/-- A concrete duplicate-free, relevance-sorted candidate pool. -/
def mmrDemo : List RChunk :=
  [⟨"alpha beta", [], 2⟩, ⟨"beta gamma", [], 1⟩]

/-- Witness: the MMR properties at a concrete pool. -/
theorem mmr_selection_props_witness :
    (retrieveMmr 1 1 mmrDemo).Nodup ∧
    (retrieveMmr 1 1 mmrDemo).length ≤ 1 ∧
    retrieveMmr 0 1 mmrDemo = mmrDemo.take 1 :=
  mmr_selection_props 1 1 mmrDemo (by decide) (by decide)

/-! ### C4 — search over-fetch, filtering, scoring and ordering -/

/-- The result loop of `search` collects, in order, the first
`top_k − c` over-fetched hits that pass the guards. -/
theorem collectHits_eq (metas : List Meta) (filters : Option (List (String × MVal)))
    (topK : Nat) :
    ∀ (hits : List (ℚ × Nat)) (c : Nat), c < topK →
      collectHits metas filters topK c hits
        = ((hits.filter (hitPasses metas filters)).take (topK - c)).map
            (fun p => ⟨metas.getD p.2 [], p.1, p.2⟩) := by
  intro hits
  induction hits with
  | nil => intro c _; simp [collectHits]
  | cons p rest ih =>
    intro c hc
    simp only [collectHits]
    by_cases hp : hitPasses metas filters p = true
    · have hfc : List.filter (hitPasses metas filters) (p :: rest)
          = p :: List.filter (hitPasses metas filters) rest := by
        simp [List.filter_cons, hp]
      rw [if_pos hp, hfc]
      have htk : topK - c = (topK - (c + 1)) + 1 := by omega
      rw [htk, List.take_succ_cons, List.map_cons]
      by_cases hbreak : c + 1 ≥ topK
      · rw [if_pos hbreak]
        have h0 : topK - (c + 1) = 0 := by omega
        rw [h0]
        simp
      · rw [if_neg hbreak, ih (c + 1) (by omega)]
    · have hfc : List.filter (hitPasses metas filters) (p :: rest)
          = List.filter (hitPasses metas filters) rest := by
        simp [List.filter_cons, hp]
      rw [if_neg hp, hfc]
      exact ih c hc

/-- The modelled FAISS search returns its hits in ascending
(distance, index) order. -/
theorem faissSearch_sorted (vecs : List Vec) (q : Vec) (k : Nat) :
    (faissSearch vecs q k).Pairwise distRank := by
  unfold faissSearch
  exact List.Pairwise.sublist (List.take_sublist _ _)
    (List.sorted_insertionSort distRank _)

/-- C4: `search` composed with the retriever's enrichment: the results
are exactly the first `top_k` hits, in ascending-distance order, of the
over-fetched `min(top_k × 3, index_size)` nearest neighbours that pass
the metadata equality filters; at most `top_k` results come back, their
distances are ascending, every result passes every provided filter, and
each enriched result's relevance score is `1 / (1 + distance)`. -/
theorem search_and_score (st : OrgStore) (q : Vec) (topK : Nat)
    (filters : Option (List (String × MVal))) (htop : 1 ≤ topK) :
    vectorSearch st q topK filters
      = (((faissSearch st.vectors q (min (topK * 3) st.ntotal)).filter
            (hitPasses st.metas filters)).take topK).map
          (fun p => ⟨st.metas.getD p.2 [], p.1, p.2⟩) ∧
    (vectorSearch st q topK filters).length ≤ topK ∧
    ((vectorSearch st q topK filters).map (fun h => h.score)).Pairwise (· ≤ ·) ∧
    (∀ h ∈ vectorSearch st q topK filters, ∀ f, filters = some f →
      matchesFilters h.meta f = true) ∧
    retrieveModel st q topK filters
      = (vectorSearch st q topK filters).map
          (fun h => ⟨metaText h.meta, h.meta, 1 / (1 + h.score)⟩) := by
  have hmain : vectorSearch st q topK filters
      = (((faissSearch st.vectors q (min (topK * 3) st.ntotal)).filter
            (hitPasses st.metas filters)).take topK).map
          (fun p => ⟨st.metas.getD p.2 [], p.1, p.2⟩) := by
    unfold vectorSearch
    by_cases hz : st.ntotal = 0
    · rw [if_pos hz, hz]
      simp [faissSearch]
    · rw [if_neg hz]
      have := collectHits_eq st.metas filters topK
        (faissSearch st.vectors q (min (topK * 3) st.ntotal)) 0 (by omega)
      simpa using this
  refine ⟨hmain, ?_, ?_, ?_, rfl⟩
  · rw [hmain]
    simp only [List.length_map, List.length_take]
    omega
  · rw [hmain]
    rw [List.map_map]
    have hsorted : ((faissSearch st.vectors q (min (topK * 3) st.ntotal)).filter
        (hitPasses st.metas filters)).take topK |>.Pairwise distRank :=
      List.Pairwise.sublist (List.take_sublist _ _)
        (List.Pairwise.sublist (List.filter_sublist _)
          (faissSearch_sorted st.vectors q _))
    refine hsorted.map _ ?_
    intro a b hab
    rcases hab with h | ⟨h, _⟩
    · exact le_of_lt h
    · exact le_of_eq h
  · intro h hmem f hf
    rw [hmain] at hmem
    rw [List.mem_map] at hmem
    obtain ⟨p, hpmem, rfl⟩ := hmem
    have hpass : hitPasses st.metas filters p = true :=
      List.of_mem_filter (List.mem_of_mem_take hpmem)
    unfold hitPasses at hpass
    rw [hf] at hpass
    simp only [Bool.and_eq_true] at hpass
    exact hpass.2

/-- A concrete two-vector store for the C4 witness. -/
def searchDemoStore : OrgStore :=
  ⟨[[0], [2]], [[("text", MVal.str "a")], [("text", MVal.str "b")]]⟩

/-- Witness: the search properties at a concrete store and query. -/
theorem search_and_score_witness :
    (vectorSearch searchDemoStore [0] 1 none).length ≤ 1 :=
  (search_and_score searchDemoStore [0] 1 none (by decide)).2.1

end LegalRag
